import Mathlib

/-!
Verification of the revng jump-target manager (`jumptargetmanager.cpp`).

The development shallowly embeds the data model and the operations of
`JumpTargetManager` and its `TranslateDirectBranchesPass`: segments and the
source architecture, the address→block map (`JumpTargets`), the
address→instruction map (`OriginalInstructionAddresses`), the `Unexplored`
worklist, `ReliablePCs`, the dispatcher switch's case table, the `Visited`
set with `unvisit`, and the algorithms `getBlockAt`, `readConstantInt`,
`harvestGlobalData`/`findCodePointers`, `isSumJump`, `getPC`, and
`registerBlock`.  Machine integers are modelled as `Nat` with explicit
`% 2 ^ w` where the source truncates; fallible operations return `Option`
or `Except`; C++ loops are modelled with explicit fuel where the source
relies on a shrinking set or a finite CFG for termination.
-/

namespace Revng

/-- Association-list lookup keyed on numbers; models `std::map::find`. -/
def alookup {α : Type} : List (Nat × α) → Nat → Option α
  | [], _ => none
  | p :: rest, k => if p.1 = k then some p.2 else alookup rest k

/-- Set-style insertion; models `std::set::insert` (no duplicates). -/
def insertNat (l : List Nat) (x : Nat) : List Nat :=
  if l.contains x then l else l ++ [x]

/-- Source instruction-set properties consulted by the manager
(`Architecture`): pointer width in bits, byte order, and the
instruction-alignment rule. -/
structure Architecture where
  pointerSizeBits : Nat
  littleEndian : Bool
  instructionAlignment : Nat
deriving DecidableEq

/-- One loaded memory region of the source binary (`SegmentInfo`):
virtual-address range, permission flags, and the backing raw bytes of the
`ConstantDataArray` initializer of `Segment.Variable`. -/
structure SegmentInfo where
  startVirtualAddress : Nat
  endVirtualAddress : Nat
  isReadable : Bool
  isWriteable : Bool
  isExecutable : Bool
  bytes : List Nat
deriving DecidableEq

/-- Little-endian value of a byte list (each entry taken mod 256). -/
def readLE : List Nat → Nat
  | [] => 0
  | b :: rest => b % 256 + 256 * readLE rest

/-- `llvm::support::endian::read` on a byte list: little-endian reads the
bytes in order, big-endian reads them reversed. -/
def readBytes (little : Bool) (bs : List Nat) : Nat :=
  if little then readLE bs else readLE bs.reverse

/-- The `Size` bytes backing `Address` inside a segment:
`RawDataPtr + (Address - StartVirtualAddress)`, `Size` bytes. -/
def segBytesAt (seg : SegmentInfo) (addr size : Nat) : List Nat :=
  (seg.bytes.drop (addr - seg.startVirtualAddress)).take size

/-- The `switch (Size)` of `readConstantInt`: size 1 is read as a single
byte (the source always uses little-endian for it), sizes 2, 4, 8 honor the
architecture byte order.  Any other size is `llvm_unreachable` in the
source; the model returns 0 there and theorems restrict to the four legal
sizes. -/
def readSized (little : Bool) (size : Nat) (bs : List Nat) : Nat :=
  match size with
  | 1 => readLE bs
  | 2 => readBytes little bs
  | 4 => readBytes little bs
  | 8 => readBytes little bs
  | _ => 0

/-- The segment-selection test of `readConstantInt`:
`Segment.StartVirtualAddress <= Address && Address + Size <
Segment.EndVirtualAddress && Segment.IsReadable`. -/
def segMatches (seg : SegmentInfo) (addr size : Nat) : Bool :=
  decide (seg.startVirtualAddress ≤ addr) &&
  decide (addr + size < seg.endVirtualAddress) &&
  seg.isReadable

/-- `JumpTargetManager::readConstantInt`: scan the segments in order and
read `size` bytes at `addr` from the first segment passing `segMatches`. -/
def readConstantInt (segs : List SegmentInfo) (little : Bool)
    (addr size : Nat) : Option Nat :=
  match segs with
  | [] => none
  | seg :: rest =>
    if segMatches seg addr size then
      some (readSized little size (segBytesAt seg addr size))
    else
      readConstantInt rest little addr size

/-!  The IR value shapes inspected by `isSumJump`. -/

/-- LLVM `BinaryOperator` opcodes distinguished by `isSumJump`; `sub`,
`mul` and `xor` stand for the `default:` opcodes of its `switch`. -/
inductive BinOp where
  | add
  | or
  | shl
  | lshr
  | ashr
  | and
  | sub
  | mul
  | xor
deriving DecidableEq

/-- The value classes `isSumJump` distinguishes: a literal constant
(with its bit width), a memory load, a binary operator, or anything else
(the walk's `else` branch). -/
inductive Value where
  | const (width val : Nat)
  | load (addr : Nat)
  | binop (op : BinOp) (lhs rhs : Value)
  | otherVal
deriving DecidableEq

/-- `isa<Constant>` on a modelled value. -/
def isConst : Value → Bool
  | .const _ _ => true
  | _ => false

/-- The operands `isSumJump` enqueues for a shift/and: every operand that
is not a constant, in operand order. -/
def nonConstOperands (v : Value) : List Value :=
  match v with
  | .binop _ a b =>
    (if isConst a then [] else [a]) ++ (if isConst b then [] else [b])
  | _ => []

/-- Size measure used to justify termination of the `isSumJump` walk. -/
def vsize : Value → Nat
  | .const _ _ => 1
  | .load _ => 1
  | .binop _ a b => 1 + vsize a + vsize b
  | .otherVal => 1

/-- Total size of a worklist of values. -/
def lsize (l : List Value) : Nat := (l.map vsize).sum

/-- The breadth-first worklist walk of `isSumJump` (`std::queue`): a
constant or a load is fine; `add`/`or` answers yes immediately;
`shl`/`lshr`/`ashr`/`and` enqueues the non-constant operands; any other
binary opcode, or any other value, answers no immediately; an exhausted
worklist answers no. -/
def isSumJumpList : List Value → Bool
  | [] => false
  | Value.const _ _ :: rest => isSumJumpList rest
  | Value.load _ :: rest => isSumJumpList rest
  | Value.binop op a b :: rest =>
    match op with
    | BinOp.add => true
    | BinOp.or => true
    | BinOp.shl => isSumJumpList (rest ++ nonConstOperands (Value.binop op a b))
    | BinOp.lshr => isSumJumpList (rest ++ nonConstOperands (Value.binop op a b))
    | BinOp.ashr => isSumJumpList (rest ++ nonConstOperands (Value.binop op a b))
    | BinOp.and => isSumJumpList (rest ++ nonConstOperands (Value.binop op a b))
    | _ => false
  | Value.otherVal :: _ => false
termination_by l => lsize l
decreasing_by
  all_goals simp only [lsize, nonConstOperands, List.map_append, List.sum_append,
    List.map_cons, List.sum_cons, vsize]
  all_goals first
    | omega
    | (split <;> split <;>
        simp only [List.map_append, List.sum_append, List.map_cons, List.sum_cons,
          List.map_nil, List.sum_nil, vsize] <;> omega)

/-- `isSumJump(PCWrite)`: run the walk starting from the value stored into
the program counter. -/
def isSumJump (v : Value) : Bool := isSumJumpList [v]

/-- `ConstantInt::getSExtValue()` stored into a `uint64_t`: interpret the
low `w` bits as a signed value and reinterpret it as an unsigned 64-bit
word. -/
def sext64 (w v : Nat) : Nat :=
  let v1 := v % 2 ^ w
  if w = 0 then 0
  else if 64 ≤ w then v1 % 2 ^ 64
  else if v1 < 2 ^ (w - 1) then v1
  else v1 + (2 ^ 64 - 2 ^ w)

/-!  The control-flow-graph skeleton the manager mutates. -/

/-- What the manager needs to know about one IR instruction: whether it is
a call to the `newpc` marker (and its `(address, size)` arguments), a call
to `exitTB`, a call to some other helper, or anything else. -/
inductive InstrKind where
  | newpc (pc size : Nat)
  | exitTBCall
  | helperCall
  | otherInstr
deriving DecidableEq

/-- The block graph: every block's instruction list (by instruction id)
and every block's successor list. -/
structure IR where
  blockInstrs : List (Nat × List Nat)
  succs : List (Nat × List Nat)
deriving DecidableEq

/-- Instruction list of a block (empty if the block is unknown). -/
def blockInstrsOf (ir : IR) (b : Nat) : List Nat :=
  (alookup ir.blockInstrs b).getD []

/-- Successor list of a block. -/
def succsOf (ir : IR) (b : Nat) : List Nat :=
  (alookup ir.succs b).getD []

/-- Predecessors of a block, recovered from the successor lists
(models `pred_begin/pred_end`). -/
def predsOf (ir : IR) (b : Nat) : List Nat :=
  (ir.succs.filter (fun p => p.2.contains b)).map Prod.fst

/-- `BasicBlock::empty()`. -/
def blockEmptyB (ir : IR) (b : Nat) : Bool :=
  (blockInstrsOf ir b).isEmpty

/-- First instruction of a block, if any. -/
def blockFirstInstr (ir : IR) (b : Nat) : Option Nat :=
  (blockInstrsOf ir b).head?

/-- Does the block's first instruction call `newpc`?  (`unvisit` stops
descending into such successors.) -/
def firstIsNewpcB (ir : IR) (kinds : List (Nat × InstrKind)) (b : Nat) : Bool :=
  match (blockInstrsOf ir b).head? with
  | some i =>
    match alookup kinds i with
    | some (InstrKind.newpc _ _) => true
    | _ => false
  | none => false

/-- The block containing an instruction (`Instruction::getParent`). -/
def instrParent (ir : IR) (i : Nat) : Option Nat :=
  (ir.blockInstrs.find? (fun p => p.2.contains i)).map Prod.fst

/-- `BasicBlock::splitBasicBlock(instr)`: the instructions from `instr` on
move to the fresh block `newId`, which inherits the old successors; the
original block keeps the prefix and falls through to `newId`. -/
def splitBlock (ir : IR) (b instr newId : Nat) : IR :=
  { blockInstrs :=
      (ir.blockInstrs.map (fun p =>
        if p.1 = b then (b, p.2.takeWhile (fun i => i != instr)) else p)) ++
      [(newId, (blockInstrsOf ir b).dropWhile (fun i => i != instr))],
    succs :=
      (ir.succs.map (fun p => if p.1 = b then (b, [newId]) else p)) ++
      [(newId, succsOf ir b)] }

/-- Number of CFG edges; used only to size the fuel of `unvisit`. -/
def irEdgeCount (ir : IR) : Nat := (ir.succs.map (fun p => p.2.length)).sum

/-- The worklist loop of `JumpTargetManager::unvisit` (a vector used as a
stack): pop a block, erase it from Visited, and push every successor that
is still in Visited, is non-empty, and does not begin with a `newpc`
marker.  The source loop terminates because Visited shrinks; the model
carries fuel ample for that argument. -/
def unvisitLoop (ir : IR) (kinds : List (Nat × InstrKind)) :
    Nat → List Nat → List Nat → List Nat
  | 0, _, visited => visited
  | _ + 1, [], visited => visited
  | fuel + 1, cur :: rest, visited =>
    let visited1 := visited.filter (fun b => b != cur)
    let pushes := (succsOf ir cur).filter
      (fun su => visited1.contains su && !(blockEmptyB ir su) &&
        !(firstIsNewpcB ir kinds su))
    unvisitLoop ir kinds fuel (pushes.reverse ++ rest) visited1

/-- `JumpTargetManager::unvisit(BB)`: run the invalidation walk if `BB` is
in Visited, otherwise do nothing. -/
def unvisit (ir : IR) (kinds : List (Nat × InstrKind)) (visited : List Nat)
    (bb : Nat) : List Nat :=
  if visited.contains bb then
    unvisitLoop ir kinds ((visited.length + 1) * (irEdgeCount ir + 2) + 1)
      [bb] visited
  else visited

/-!  The manager state. -/

/-- The mutable state of one `JumpTargetManager` plus the read-only inputs
it was constructed with. -/
structure JTMState where
  arch : Architecture
  segments : List SegmentInfo
  executableRanges : List (Nat × Nat)
  pcWidth : Nat
  jumpTargets : List (Nat × Nat)
  originalInstructionAddresses : List (Nat × Nat)
  unexplored : List (Nat × Nat)
  reliablePCs : List Nat
  dispatcherCases : List (Nat × Nat)
  visited : List Nat
  ir : IR
  instrKinds : List (Nat × InstrKind)
  dispatcher : Nat
  nextBlockId : Nat
deriving DecidableEq

/-- Modelled from the spec: `isExecutableAddress` is declared in the
manager's header, which is not among the sources; the spec says a valid
address must lie within `ExecutableRanges`, the `(start, end)` pairs
derived from the executable segments. -/
def isExecutableAddress (ranges : List (Nat × Nat)) (pc : Nat) : Bool :=
  ranges.any (fun r => decide (r.1 ≤ pc) && decide (pc < r.2))

/-- Modelled from the spec: `isInstructionAligned` is declared in the
manager's header, which is not among the sources; the spec says a valid
address must satisfy the instruction-alignment rule of the source
architecture. -/
def isInstructionAligned (arch : Architecture) (pc : Nat) : Bool :=
  pc % arch.instructionAlignment == 0

/-- The validity test at the top of `getBlockAt`. -/
def validAddress (s : JTMState) (pc : Nat) : Bool :=
  isExecutableAddress s.executableRanges pc && isInstructionAligned s.arch pc

/-- Tail of every successful `getBlockAt` branch: add a case to the
dispatcher switch (`ConstantInt::get(SwitchType, PC)` truncates the
address to the PC register's width) and record the address→block
association.  The address is never already a key here, so the map update
is an insertion. -/
def addCaseAndRegister (s : JTMState) (pc nb : Nat) : Option Nat × JTMState :=
  (some nb,
   { s with
     dispatcherCases := s.dispatcherCases ++ [(pc % 2 ^ s.pcWidth, nb)],
     jumpTargets := s.jumpTargets ++ [(pc, nb)] })

/-- The three cases of `getBlockAt` after validation and the ReliablePCs
insertion: (1) the address already has a block — `unvisit` it and return
it without touching the switch; (2) the address has a recorded instruction
— reuse its containing block if the instruction is the block's first,
otherwise split; (3) a fresh placeholder block, pushed on `Unexplored`. -/
def getBlockAtBody (s : JTMState) (pc : Nat) : Option Nat × JTMState :=
  match alookup s.jumpTargets pc with
  | some b =>
    (some b, { s with visited := unvisit s.ir s.instrKinds s.visited b })
  | none =>
    match alookup s.originalInstructionAddresses pc with
    | some instr =>
      if blockFirstInstr s.ir ((instrParent s.ir instr).getD 0) = some instr then
        addCaseAndRegister
          { s with visited := unvisit s.ir s.instrKinds s.visited
                     ((instrParent s.ir instr).getD 0) }
          pc ((instrParent s.ir instr).getD 0)
      else
        addCaseAndRegister
          { s with
            ir := splitBlock s.ir ((instrParent s.ir instr).getD 0) instr
                    s.nextBlockId,
            nextBlockId := s.nextBlockId + 1,
            visited := unvisit
              (splitBlock s.ir ((instrParent s.ir instr).getD 0) instr
                s.nextBlockId)
              s.instrKinds s.visited s.nextBlockId }
          pc s.nextBlockId
    | none =>
      addCaseAndRegister
        { s with nextBlockId := s.nextBlockId + 1,
                 unexplored := s.unexplored ++ [(pc, s.nextBlockId)] }
        pc s.nextBlockId

/-- `JumpTargetManager::getBlockAt(PC, Reliable)`: reject a non-executable
or misaligned address before touching any state; otherwise record the
address in ReliablePCs when `Reliable` and dispatch on the three cases. -/
def getBlockAt (s : JTMState) (pc : Nat) (reliable : Bool) :
    Option Nat × JTMState :=
  if validAddress s pc then
    getBlockAtBody
      { s with reliablePCs :=
          if reliable then insertNat s.reliablePCs pc else s.reliablePCs } pc
  else (none, s)

/-- A sequence of `getBlockAt` calls, each threading the state. -/
def runCalls (s : JTMState) (calls : List (Nat × Bool)) : JTMState :=
  calls.foldl (fun acc c => (getBlockAt acc c.1 c.2).2) s

/-- Error outcomes of `registerBlock`: the `assert` on a conflicting
association, and the undefined dereference of the past-the-end iterator. -/
inductive RegError where
  | assertViolation
  | absentEntryDeref
deriving DecidableEq

/-- `JumpTargetManager::registerBlock(PC, Block)`: the source looks the
address up, asserts `It == JumpTargets.end() || It->second == Block`, and
then evaluates `It->second != Block` unconditionally — when the address is
absent this dereferences the end iterator.  The model reports that read of
an absent entry as `absentEntryDeref`. -/
def registerBlock (s : JTMState) (pc block : Nat) : Except RegError JTMState :=
  match alookup s.jumpTargets pc with
  | some existing =>
    if existing = block then Except.ok s
    else Except.error RegError.assertViolation
  | none => Except.error RegError.absentEntryDeref

/-!  Global-data harvesting. -/

/-- The scan loop of `findCodePointers`, with fuel (the source loop is
bounded by the byte count): while `Start < End - sizeof(value_type)`, i.e.
while `off + w < length`, read a `w`-byte word at `off` and pass it to
`getBlockAt(value, false)`. -/
def findCodePointersAux (w : Nat) (little : Bool) (bytes : List Nat) :
    Nat → Nat → JTMState → JTMState
  | _, 0, s => s
  | off, fuel + 1, s =>
    if off + w < bytes.length then
      findCodePointersAux w little bytes (off + 1) fuel
        ((getBlockAt s (readBytes little ((bytes.drop off).take w)) false).2)
    else s

/-- `JumpTargetManager::findCodePointers(Start, End)`. -/
def findCodePointers (w : Nat) (little : Bool) (bytes : List Nat)
    (s : JTMState) : JTMState :=
  findCodePointersAux w little bytes 0 (bytes.length + 1) s

/-- One segment of `harvestGlobalData`: a 64-bit pointer size scans 8-byte
words, a 32-bit pointer size scans 4-byte words, any other pointer size
scans nothing. -/
def harvestSegment (s : JTMState) (seg : SegmentInfo) : JTMState :=
  if s.arch.pointerSizeBits = 64 then
    findCodePointers 8 s.arch.littleEndian seg.bytes s
  else if s.arch.pointerSizeBits = 32 then
    findCodePointers 4 s.arch.littleEndian seg.bytes s
  else s

/-- `JumpTargetManager::harvestGlobalData()`. -/
def harvestGlobalData (s : JTMState) : JTMState :=
  s.segments.foldl harvestSegment s

/-- The word values the scan reads, in scan order (pure companion of
`findCodePointersAux`). -/
def candListAux (w : Nat) (little : Bool) (bytes : List Nat) :
    Nat → Nat → List Nat
  | _, 0 => []
  | off, fuel + 1 =>
    if off + w < bytes.length then
      readBytes little ((bytes.drop off).take w) ::
        candListAux w little bytes (off + 1) fuel
    else []

/-- Word values scanned by `findCodePointers` from offset 0. -/
def candList (w : Nat) (little : Bool) (bytes : List Nat) : List Nat :=
  candListAux w little bytes 0 (bytes.length + 1)

/-- Fold `getBlockAt (·, reliable := false)` over a list of candidate
addresses. -/
def applyCandidates (s : JTMState) (vs : List Nat) : JTMState :=
  vs.foldl (fun acc v => (getBlockAt acc v false).2) s

/-- The claim's reading of the scan: a word is read at every offset at
which a full word fits, `off + w ≤ length`, including the last such
offset.  Stated from the claim's words, to be compared with the
source-translated `candList`. -/
def candListClaimedAux (w : Nat) (little : Bool) (bytes : List Nat) :
    Nat → Nat → List Nat
  | _, 0 => []
  | off, fuel + 1 =>
    if off + w ≤ bytes.length then
      readBytes little ((bytes.drop off).take w) ::
        candListClaimedAux w little bytes (off + 1) fuel
    else []

/-- Word values the claim says `findCodePointers` scans. -/
def candListClaimed (w : Nat) (little : Bool) (bytes : List Nat) : List Nat :=
  candListClaimedAux w little bytes 0 (bytes.length + 1)

/-- `harvestGlobalData` as the claim describes it: every full-word offset,
last one included. -/
def harvestGlobalDataClaimed (s : JTMState) : JTMState :=
  s.segments.foldl
    (fun acc seg =>
      if acc.arch.pointerSizeBits = 64 then
        applyCandidates acc (candListClaimed 8 acc.arch.littleEndian seg.bytes)
      else if acc.arch.pointerSizeBits = 32 then
        applyCandidates acc (candListClaimed 4 acc.arch.littleEndian seg.bytes)
      else acc) s

/-!  The direct-branch pass fragment around one `exitTB` call. -/

/-- The handling of one `exitTB` call in
`TranslateDirectBranchesPass::runOnFunction`, restricted to the jump-target
bookkeeping it performs: if there is no preceding PC write the call is left
alone; otherwise, under OSRA, a sum-jump write first materialises the
fall-through block; and a constant write resolves
`getBlockAt(TargetPC, IsReliable)` with
`IsReliable = NextPC != 0 && TargetPC != NextPC`.  The second component
records the `(address, reliable)` pair passed to `getBlockAt` for the
constant case. -/
def processExit (s : JTMState) (pcWrite : Option Value) (nextPC : Nat)
    (osra : Bool) : JTMState × Option (Nat × Bool) :=
  match pcWrite with
  | none => (s, none)
  | some v =>
    let s1 :=
      if decide (nextPC ≠ 0) && osra && isSumJump v then
        (getBlockAt s nextPC false).2
      else s
    match v with
    | Value.const w val =>
      let target := sext64 w val
      let reliable := decide (nextPC ≠ 0) && decide (target ≠ nextPC)
      ((getBlockAt s1 target reliable).2, some (target, reliable))
    | _ => (s1, none)

/-!  `getPC`: backward breadth-first search for the nearest `newpc`. -/

/-- First `newpc` call in an instruction sequence, with its
`(address, size)` arguments. -/
def firstNewpcArgs (kinds : List (Nat × InstrKind)) :
    List Nat → Option (Nat × Nat)
  | [] => none
  | i :: rest =>
    match alookup kinds i with
    | some (InstrKind.newpc pc sz) => some (pc, sz)
    | _ => firstNewpcArgs kinds rest

/-- Fuel ample for the `getPC` worklist loop on the given CFG. -/
def getPCFuel (ir : IR) : Nat :=
  (ir.blockInstrs.length + 2) * (irEdgeCount ir + ir.blockInstrs.length + 2)

/-- The worklist loop of `JumpTargetManager::getPC` (a FIFO queue of
partially-scanned blocks).  Popping an entry marks its block visited and
scans it backwards for a `newpc` call; a second `newpc` found while one is
already recorded returns the sentinel `(0, 0)` immediately; with no marker
recorded yet, a dispatcher predecessor trips an `assert` (modelled as
`Except.error`), and otherwise every non-empty unvisited predecessor is
enqueued whole.  An exhausted queue returns the recorded marker's
arguments (its size asserted non-zero) or the sentinel. -/
def getPCLoop (ir : IR) (kinds : List (Nat × InstrKind)) (disp : Nat) :
    Nat → List (Nat × List Nat) → List Nat → Option (Nat × Nat) →
    Except Unit (Nat × Nat)
  | _, [], _, found =>
    match found with
    | none => Except.ok (0, 0)
    | some (pc, sz) => if sz = 0 then Except.error () else Except.ok (pc, sz)
  | 0, _ :: _, _, _ => Except.error ()
  | fuel + 1, (bb, scan) :: rest, vis, found =>
    match found, firstNewpcArgs kinds scan with
    | some _, some _ => Except.ok (0, 0)
    | none, some (pc, sz) =>
      getPCLoop ir kinds disp fuel rest (insertNat vis bb) (some (pc, sz))
    | some f, none => getPCLoop ir kinds disp fuel rest (insertNat vis bb) (some f)
    | none, none =>
      if (predsOf ir bb).contains disp then Except.error ()
      else
        getPCLoop ir kinds disp fuel
          (rest ++ ((predsOf ir bb).filter
              (fun p => !(blockEmptyB ir p) && !((insertNat vis bb).contains p))).map
            (fun p => (p, (blockInstrsOf ir p).reverse)))
          (insertNat vis bb) none

/-- `JumpTargetManager::getPC(TheInstruction)` for the instruction at
position `idx` of block `b`: the initial queue entry scans only the
block's first instruction when `idx = 0` (the source's `--rend()`), and
otherwise the instructions strictly before `idx`, backwards. -/
def getPC (s : JTMState) (b idx : Nat) : Except Unit (Nat × Nat) :=
  getPCLoop s.ir s.instrKinds s.dispatcher (getPCFuel s.ir)
    [(b, if idx = 0 then (blockInstrsOf s.ir b).take 1
         else ((blockInstrsOf s.ir b).take idx).reverse)] [] none

/-!  Concrete states used by the closed witnesses and counterexamples. -/

/-- A small manager state: one executable range `[0, 100)`, alignment 1,
32-bit little-endian architecture, all maps empty, next block id 7. -/
def csW : JTMState :=
  { arch := ⟨32, true, 1⟩, segments := [], executableRanges := [(0, 100)],
    pcWidth := 32, jumpTargets := [], originalInstructionAddresses := [],
    unexplored := [], reliablePCs := [], dispatcherCases := [], visited := [],
    ir := ⟨[], []⟩, instrKinds := [], dispatcher := 0, nextBlockId := 7 }

/-- A readable, non-executable 6-byte segment at `[0, 6)` whose leading
bytes are 01 00 00 00. -/
def segLE : SegmentInfo := ⟨0, 6, true, false, false, [1, 0, 0, 0, 0, 0]⟩

/-- A manager state on a 32-bit architecture with a single segment of
exactly four bytes 01 00 00 00: one full pointer-sized word fits, ending
at the segment's final byte. -/
def csHarvest : JTMState :=
  { arch := ⟨32, true, 1⟩,
    segments := [⟨0, 100, true, false, true, [1, 0, 0, 0]⟩],
    executableRanges := [(0, 100)], pcWidth := 32,
    jumpTargets := [], originalInstructionAddresses := [], unexplored := [],
    reliablePCs := [], dispatcherCases := [], visited := [],
    ir := ⟨[], []⟩, instrKinds := [], dispatcher := 0, nextBlockId := 7 }

/-- A diamond CFG: block 1 holds the single `newpc 100 4` marker and
branches to blocks 2 and 3, which both join into block 4; `getPC` is asked
from inside block 4. -/
def irEx : IR :=
  ⟨[(1, [10]), (2, [11]), (3, [12]), (4, [13, 14])],
   [(1, [2, 3]), (2, [4]), (3, [4])]⟩

/-- Instruction kinds for `irEx`: only instruction 10 is a `newpc`. -/
def kindsEx : List (Nat × InstrKind) :=
  [(10, InstrKind.newpc 100 4), (11, InstrKind.otherInstr),
   (12, InstrKind.otherInstr), (13, InstrKind.otherInstr),
   (14, InstrKind.otherInstr)]

/-- Manager state over the diamond CFG `irEx`. -/
def stEx : JTMState :=
  { arch := ⟨32, true, 1⟩, segments := [], executableRanges := [(0, 100)],
    pcWidth := 32, jumpTargets := [], originalInstructionAddresses := [],
    unexplored := [], reliablePCs := [], dispatcherCases := [], visited := [],
    ir := irEx, instrKinds := kindsEx, dispatcher := 99, nextBlockId := 7 }

/-- A one-block CFG whose `newpc 100 4` marker directly precedes the
queried instruction. -/
def stEx2 : JTMState := { stEx with ir := ⟨[(1, [10, 11])], []⟩ }

/-- A CFG in which the dispatcher (block 99) is a predecessor of the
marker-less block 5 holding the queried instruction. -/
def stEx3 : JTMState :=
  { stEx with ir := ⟨[(5, [20]), (99, [21])], [(99, [5])]⟩,
              instrKinds := [(20, InstrKind.otherInstr),
                             (21, InstrKind.otherInstr)] }

/-- A request sequence with one repeated address. -/
def callsW : List (Nat × Bool) := [(4, true), (8, false), (4, false)]

/-!  Association-list lemmas. -/

theorem alookup_none_iff {α : Type} (l : List (Nat × α)) (k : Nat) :
    alookup l k = none ↔ k ∉ l.map Prod.fst := by
  induction l with
  | nil => simp [alookup]
  | cons p rest ih =>
    by_cases h : p.1 = k
    · simp [alookup, h]
    · rw [alookup, if_neg h, ih]
      simp only [List.map_cons, List.mem_cons]
      constructor
      · intro hnm hor
        rcases hor with h1 | h1
        · exact h h1.symm
        · exact hnm h1
      · intro hnm h1
        exact hnm (Or.inr h1)

theorem alookup_some_mem {α : Type} {l : List (Nat × α)} {k : Nat} {v : α}
    (h : alookup l k = some v) : k ∈ l.map Prod.fst := by
  by_contra hc
  rw [(alookup_none_iff l k).mpr hc] at h
  cases h

theorem alookup_append_right {α : Type} (l : List (Nat × α)) (k : Nat) (v : α)
    (h : alookup l k = none) : alookup (l ++ [(k, v)]) k = some v := by
  induction l with
  | nil => simp [alookup]
  | cons p rest ih =>
    by_cases hp : p.1 = k
    · rw [alookup, if_pos hp] at h; cases h
    · rw [alookup, if_neg hp] at h
      rw [List.cons_append, alookup, if_neg hp]
      exact ih h

/-!  Shape lemmas for `getBlockAt`. -/

theorem getBlockAtBody_found (s : JTMState) (pc b0 : Nat)
    (h : alookup s.jumpTargets pc = some b0) :
    getBlockAtBody s pc =
      (some b0, { s with visited := unvisit s.ir s.instrKinds s.visited b0 }) := by
  unfold getBlockAtBody
  rw [h]

theorem getBlockAtBody_new (s : JTMState) (pc : Nat)
    (h : alookup s.jumpTargets pc = none) :
    ∃ nb,
      (getBlockAtBody s pc).1 = some nb ∧
      (getBlockAtBody s pc).2.jumpTargets = s.jumpTargets ++ [(pc, nb)] ∧
      (getBlockAtBody s pc).2.dispatcherCases =
        s.dispatcherCases ++ [(pc % 2 ^ s.pcWidth, nb)] ∧
      (getBlockAtBody s pc).2.executableRanges = s.executableRanges ∧
      (getBlockAtBody s pc).2.arch = s.arch ∧
      (getBlockAtBody s pc).2.pcWidth = s.pcWidth ∧
      (getBlockAtBody s pc).2.segments = s.segments := by
  unfold getBlockAtBody
  split
  · rename_i b0 hb0
    rw [h] at hb0
    cases hb0
  · split
    · split
      · exact ⟨_, rfl, rfl, rfl, rfl, rfl, rfl, rfl⟩
      · exact ⟨_, rfl, rfl, rfl, rfl, rfl, rfl, rfl⟩
    · exact ⟨_, rfl, rfl, rfl, rfl, rfl, rfl, rfl⟩

theorem getBlockAt_found (s : JTMState) (pc : Nat) (r : Bool) (b0 : Nat)
    (hv : validAddress s pc = true) (h : alookup s.jumpTargets pc = some b0) :
    (getBlockAt s pc r).1 = some b0 ∧
    (getBlockAt s pc r).2.jumpTargets = s.jumpTargets ∧
    (getBlockAt s pc r).2.dispatcherCases = s.dispatcherCases ∧
    (getBlockAt s pc r).2.executableRanges = s.executableRanges ∧
    (getBlockAt s pc r).2.arch = s.arch ∧
    (getBlockAt s pc r).2.pcWidth = s.pcWidth := by
  unfold getBlockAt
  rw [if_pos hv]
  have hb := getBlockAtBody_found
    { s with reliablePCs := if r = true then insertNat s.reliablePCs pc
                            else s.reliablePCs } pc b0 h
  rw [hb]
  exact ⟨rfl, rfl, rfl, rfl, rfl, rfl⟩

theorem getBlockAt_new (s : JTMState) (pc : Nat) (r : Bool)
    (hv : validAddress s pc = true) (h : alookup s.jumpTargets pc = none) :
    ∃ nb,
      (getBlockAt s pc r).1 = some nb ∧
      (getBlockAt s pc r).2.jumpTargets = s.jumpTargets ++ [(pc, nb)] ∧
      (getBlockAt s pc r).2.dispatcherCases =
        s.dispatcherCases ++ [(pc % 2 ^ s.pcWidth, nb)] ∧
      (getBlockAt s pc r).2.executableRanges = s.executableRanges ∧
      (getBlockAt s pc r).2.arch = s.arch ∧
      (getBlockAt s pc r).2.pcWidth = s.pcWidth := by
  unfold getBlockAt
  rw [if_pos hv]
  obtain ⟨nb, h1, h2, h3, h4, h5, h6, _⟩ := getBlockAtBody_new
    { s with reliablePCs := if r = true then insertNat s.reliablePCs pc
                            else s.reliablePCs } pc h
  exact ⟨nb, h1, h2, h3, h4, h5, h6⟩

theorem getBlockAt_some (s : JTMState) (pc : Nat) (r : Bool)
    (hv : validAddress s pc = true) :
    ∃ b, (getBlockAt s pc r).1 = some b ∧
      alookup (getBlockAt s pc r).2.jumpTargets pc = some b ∧
      (getBlockAt s pc r).2.executableRanges = s.executableRanges ∧
      (getBlockAt s pc r).2.arch = s.arch ∧
      (getBlockAt s pc r).2.pcWidth = s.pcWidth := by
  cases hjt : alookup s.jumpTargets pc with
  | some b0 =>
    obtain ⟨h1, h2, _, h4, h5, h6⟩ := getBlockAt_found s pc r b0 hv hjt
    exact ⟨b0, h1, by rw [h2]; exact hjt, h4, h5, h6⟩
  | none =>
    obtain ⟨nb, h1, h2, _, h4, h5, h6⟩ := getBlockAt_new s pc r hv hjt
    exact ⟨nb, h1, by rw [h2]; exact alookup_append_right _ pc nb hjt, h4, h5, h6⟩

theorem validAddress_congr {s t : JTMState} (pc : Nat)
    (hr : t.executableRanges = s.executableRanges) (ha : t.arch = s.arch) :
    validAddress t pc = validAddress s pc := by
  unfold validAddress
  rw [hr, ha]

/-- C1: `getBlockAt` on an address outside ExecutableRanges or violating
the instruction-alignment rule returns absent and leaves the whole manager
state — JumpTargets, OriginalInstructionAddresses, Unexplored, ReliablePCs
(even for `reliable = true`), and the dispatcher switch's case table —
unchanged. -/
theorem getBlockAt_invalid_untouched (s : JTMState) (pc : Nat) (r : Bool)
    (h : isExecutableAddress s.executableRanges pc = false ∨
         isInstructionAligned s.arch pc = false) :
    getBlockAt s pc r = (none, s) := by
  have hv : validAddress s pc = false := by
    unfold validAddress
    rcases h with h | h <;> simp [h]
  unfold getBlockAt
  rw [hv]
  rfl

/-- C1 witness: address 200 lies outside the executable range `[0, 100)`,
so `getBlockAt` with `reliable = true` rejects it and the state is
untouched. -/
theorem getBlockAt_invalid_untouched_witness :
    getBlockAt csW 200 true = (none, csW) :=
  getBlockAt_invalid_untouched csW 200 true (Or.inl rfl)

/-- C4: calling `getBlockAt` twice with the same valid address and the
same reliability flag returns the same block both times, and the second
call leaves the dispatcher switch's case table exactly as the first call
left it. -/
theorem getBlockAt_idempotent (s : JTMState) (pc : Nat) (r : Bool)
    (hv : validAddress s pc = true) :
    (getBlockAt (getBlockAt s pc r).2 pc r).1 = (getBlockAt s pc r).1 ∧
    (getBlockAt (getBlockAt s pc r).2 pc r).2.dispatcherCases =
      (getBlockAt s pc r).2.dispatcherCases := by
  obtain ⟨b, hb, hlk, hra, har, _⟩ := getBlockAt_some s pc r hv
  have hv1 : validAddress (getBlockAt s pc r).2 pc = true := by
    rw [validAddress_congr pc hra har]; exact hv
  obtain ⟨h1, _, h3, _, _, _⟩ := getBlockAt_found _ pc r b hv1 hlk
  exact ⟨by rw [h1, hb], h3⟩

/-- C4 witness: requesting address 4 twice with `reliable = true` on the
small state returns the same block and leaves the case table as after the
first call. -/
theorem getBlockAt_idempotent_witness :
    (getBlockAt (getBlockAt csW 4 true).2 4 true).1 = (getBlockAt csW 4 true).1 ∧
    (getBlockAt (getBlockAt csW 4 true).2 4 true).2.dispatcherCases =
      (getBlockAt csW 4 true).2.dispatcherCases :=
  getBlockAt_idempotent csW 4 true rfl

/-!  `readConstantInt`: bounds and byte order (C3, C8). -/

theorem segMatches_iff (seg : SegmentInfo) (addr size : Nat) :
    segMatches seg addr size = true ↔
      seg.startVirtualAddress ≤ addr ∧ addr + size < seg.endVirtualAddress ∧
        seg.isReadable = true := by
  unfold segMatches
  simp [Bool.and_eq_true, and_assoc]

theorem readConstantInt_isSome (little : Bool) (addr size : Nat) :
    ∀ segs : List SegmentInfo,
      ((readConstantInt segs little addr size).isSome = true ↔
        ∃ seg ∈ segs, seg.startVirtualAddress ≤ addr ∧
          addr + size < seg.endVirtualAddress ∧ seg.isReadable = true) := by
  intro segs
  induction segs with
  | nil => simp [readConstantInt]
  | cons seg rest ih =>
    by_cases h : segMatches seg addr size = true
    · rw [readConstantInt, if_pos h]
      simp only [Option.isSome_some, true_iff]
      exact ⟨seg, List.mem_cons_self _ _, (segMatches_iff seg addr size).mp h⟩
    · rw [readConstantInt, if_neg h, ih]
      constructor
      · rintro ⟨sg, hm, hp⟩
        exact ⟨sg, List.mem_cons_of_mem _ hm, hp⟩
      · rintro ⟨sg, hm, hp⟩
        rcases List.mem_cons.mp hm with heq | hm2
        · exact absurd ((segMatches_iff seg addr size).mpr (heq ▸ hp)) h
        · exact ⟨sg, hm2, hp⟩

/-- C3: `readConstantInt` returns a value exactly when some segment
satisfies `start ≤ addr`, `addr + size < end` (strict) and is readable;
with well-formed, pairwise non-overlapping segments it follows that a read
whose last byte lands exactly on a segment's final valid byte
(`addr + size = end`) returns absent. -/
theorem readConstantInt_bounds (segs : List SegmentInfo) (little : Bool)
    (addr size : Nat)
    (hsize : size = 1 ∨ size = 2 ∨ size = 4 ∨ size = 8)
    (hwf : ∀ seg ∈ segs, seg.startVirtualAddress ≤ seg.endVirtualAddress)
    (hdisj : ∀ s1 ∈ segs, ∀ s2 ∈ segs, s1 ≠ s2 →
      s1.endVirtualAddress ≤ s2.startVirtualAddress ∨
      s2.endVirtualAddress ≤ s1.startVirtualAddress) :
    ((readConstantInt segs little addr size).isSome = true ↔
      ∃ seg ∈ segs, seg.startVirtualAddress ≤ addr ∧
        addr + size < seg.endVirtualAddress ∧ seg.isReadable = true) ∧
    ((∃ seg ∈ segs, addr + size = seg.endVirtualAddress) →
      readConstantInt segs little addr size = none) := by
  have hiff := readConstantInt_isSome little addr size segs
  refine ⟨hiff, ?_⟩
  rintro ⟨seg0, hseg0, hend⟩
  cases hres : readConstantInt segs little addr size with
  | none => rfl
  | some v =>
    exfalso
    have hsome : (readConstantInt segs little addr size).isSome = true := by
      rw [hres]; rfl
    obtain ⟨seg1, hseg1, hstart1, hlt1, _⟩ := hiff.mp hsome
    have hpos : 0 < size := by rcases hsize with h | h | h | h <;> omega
    by_cases heq : seg1 = seg0
    · subst heq; omega
    · have hwf0 := hwf seg0 hseg0
      rcases hdisj seg1 hseg1 seg0 hseg0 heq with hd | hd <;> omega

/-- C3 witness: for the segment `[0, 6)` a 4-byte read at address 2 ends
exactly on the final valid byte; the characterization applies and the
boundary read is absent. -/
theorem readConstantInt_bounds_witness :
    (((readConstantInt [segLE] true 2 4).isSome = true ↔
      ∃ seg ∈ [segLE], seg.startVirtualAddress ≤ 2 ∧
        2 + 4 < seg.endVirtualAddress ∧ seg.isReadable = true) ∧
    ((∃ seg ∈ [segLE], 2 + 4 = seg.endVirtualAddress) →
      readConstantInt [segLE] true 2 4 = none)) :=
  readConstantInt_bounds [segLE] true 2 4 (Or.inr (Or.inr (Or.inl rfl)))
    (by decide) (by decide)

/-- C8: multi-byte reads honor the source byte order — backing bytes
01 00 00 00 read as a 4-byte value give 1 under little-endian order and
16777216 under big-endian order — and a single-byte read is independent of
the byte order. -/
theorem readConstantInt_endianness :
    readConstantInt [segLE] true 0 4 = some 1 ∧
    readConstantInt [segLE] false 0 4 = some 16777216 ∧
    ∀ (little : Bool) (bs : List Nat), readSized little 1 bs = readSized true 1 bs :=
  ⟨rfl, rfl, fun _ _ => rfl⟩

/-!  Sum-jump classification (C5) and the direct-branch pass (C6). -/

/-- C5: the sum-jump classification: `add(load x, const)` is a sum jump;
`and(load x, const)`, whose operand chain bottoms out at a load, is not; a
bare constant is not; any `add`/`or` reached by the walk answers yes
immediately; shifts and `and` propagate the walk into their non-constant
operands; any other operation answers no immediately. -/
theorem isSumJump_classification :
    (∀ x w c, isSumJump (Value.binop BinOp.add (Value.load x) (Value.const w c)) = true) ∧
    (∀ x w c, isSumJump (Value.binop BinOp.and (Value.load x) (Value.const w c)) = false) ∧
    (∀ w c, isSumJump (Value.const w c) = false) ∧
    (∀ op a b, (op = BinOp.add ∨ op = BinOp.or) →
      isSumJump (Value.binop op a b) = true) ∧
    (∀ op a b,
      (op = BinOp.shl ∨ op = BinOp.lshr ∨ op = BinOp.ashr ∨ op = BinOp.and) →
      isSumJump (Value.binop op a b) =
        isSumJumpList (nonConstOperands (Value.binop op a b))) ∧
    (∀ op a b, (op = BinOp.sub ∨ op = BinOp.mul ∨ op = BinOp.xor) →
      isSumJump (Value.binop op a b) = false) ∧
    isSumJump Value.otherVal = false := by
  refine ⟨?_, ?_, ?_, ?_, ?_, ?_, ?_⟩
  · intro x w c
    simp [isSumJump, isSumJumpList]
  · intro x w c
    simp [isSumJump, isSumJumpList, nonConstOperands, isConst]
  · intro w c
    simp [isSumJump, isSumJumpList]
  · intro op a b h
    rcases h with h | h <;> subst h <;> simp [isSumJump, isSumJumpList]
  · intro op a b h
    rcases h with h | h | h | h <;> subst h <;>
      simp [isSumJump, isSumJumpList]
  · intro op a b h
    rcases h with h | h | h <;> subst h <;> simp [isSumJump, isSumJumpList]
  · simp [isSumJump, isSumJumpList]

/-- C5 witness: the classification at concrete values. -/
theorem isSumJump_classification_witness :
    isSumJump (Value.binop BinOp.add (Value.load 0) (Value.const 32 4)) = true ∧
    isSumJump (Value.binop BinOp.and (Value.load 0) (Value.const 32 4)) = false ∧
    isSumJump (Value.const 32 4) = false ∧
    isSumJump (Value.binop BinOp.or Value.otherVal Value.otherVal) = true ∧
    isSumJump (Value.binop BinOp.shl (Value.load 1) (Value.const 32 2)) =
      isSumJumpList (nonConstOperands
        (Value.binop BinOp.shl (Value.load 1) (Value.const 32 2))) ∧
    isSumJump (Value.binop BinOp.sub (Value.load 1) (Value.load 2)) = false :=
  ⟨isSumJump_classification.1 0 32 4,
   isSumJump_classification.2.1 0 32 4,
   isSumJump_classification.2.2.1 32 4,
   isSumJump_classification.2.2.2.1 BinOp.or Value.otherVal Value.otherVal (Or.inr rfl),
   isSumJump_classification.2.2.2.2.1 BinOp.shl (Value.load 1) (Value.const 32 2)
     (Or.inl rfl),
   isSumJump_classification.2.2.2.2.2.1 BinOp.sub (Value.load 1) (Value.load 2)
     (Or.inl rfl)⟩

/-- C6: for an exit-to-dispatch call whose preceding PC write stores a
literal constant, the reliability flag passed to `getBlockAt` is true
exactly when the fall-through address is known (non-zero) and differs from
the constant target; a same-address jump is not marked reliable. -/
theorem directBranch_reliability (s : JTMState) (nextPC w val : Nat)
    (osra : Bool) :
    ∃ r, (processExit s (some (Value.const w val)) nextPC osra).2 =
        some (sext64 w val, r) ∧
      (r = true ↔ nextPC ≠ 0 ∧ sext64 w val ≠ nextPC) := by
  refine ⟨decide (nextPC ≠ 0) && decide (sext64 w val ≠ nextPC), rfl, ?_⟩
  simp

/-- C10 (code bug): on an address absent from JumpTargets, `registerBlock`
dereferences the past-the-end iterator — its store decision reads an
absent map entry — so the registration never completes cleanly. -/
theorem registerBlock_absent_deref :
    alookup csW.jumpTargets 4096 = none ∧
    registerBlock csW 4096 11 = Except.error RegError.absentEntryDeref :=
  ⟨rfl, rfl⟩

/-!  Global-data harvesting (C2). -/

theorem getBlockAt_core (s : JTMState) (pc : Nat) (r : Bool) :
    (getBlockAt s pc r).2.arch = s.arch ∧
    (getBlockAt s pc r).2.segments = s.segments := by
  unfold getBlockAt getBlockAtBody
  repeat' split
  all_goals exact ⟨rfl, rfl⟩

theorem applyCandidates_core (vs : List Nat) :
    ∀ s : JTMState, (applyCandidates s vs).arch = s.arch ∧
      (applyCandidates s vs).segments = s.segments := by
  induction vs with
  | nil => intro s; exact ⟨rfl, rfl⟩
  | cons v rest ih =>
    intro s
    obtain ⟨ha, hs⟩ := ih (getBlockAt s v false).2
    obtain ⟨ga, gs⟩ := getBlockAt_core s v false
    exact ⟨by rw [show applyCandidates s (v :: rest) =
        applyCandidates (getBlockAt s v false).2 rest from rfl, ha, ga],
      by rw [show applyCandidates s (v :: rest) =
        applyCandidates (getBlockAt s v false).2 rest from rfl, hs, gs]⟩

theorem findCodePointersAux_eq (w : Nat) (little : Bool) (bytes : List Nat) :
    ∀ (fuel off : Nat) (s : JTMState),
      findCodePointersAux w little bytes off fuel s =
        applyCandidates s (candListAux w little bytes off fuel) := by
  intro fuel
  induction fuel with
  | zero => intro off s; rfl
  | succ n ih =>
    intro off s
    unfold findCodePointersAux candListAux
    by_cases h : off + w < bytes.length
    · rw [if_pos h, if_pos h, ih]
      rfl
    · rw [if_neg h, if_neg h]
      rfl

theorem candListAux_eq (w : Nat) (little : Bool) (bytes : List Nat) :
    ∀ fuel off, bytes.length + 1 - off ≤ fuel →
      candListAux w little bytes off fuel =
        (List.range' off (bytes.length - w - off)).map
          (fun o => readBytes little ((bytes.drop o).take w)) := by
  intro fuel
  induction fuel with
  | zero =>
    intro off h
    have h0 : bytes.length - w - off = 0 := by omega
    rw [h0]
    rfl
  | succ n ih =>
    intro off h
    unfold candListAux
    by_cases hc : off + w < bytes.length
    · rw [if_pos hc]
      have hn : bytes.length - w - off = (bytes.length - w - (off + 1)) + 1 := by
        omega
      rw [hn, List.range'_succ, List.map_cons, ih (off + 1) (by omega)]
    · rw [if_neg hc]
      have h0 : bytes.length - w - off = 0 := by omega
      rw [h0]
      rfl

theorem findCodePointers_eq (w : Nat) (little : Bool) (bytes : List Nat)
    (s : JTMState) :
    findCodePointers w little bytes s =
      applyCandidates s ((List.range' 0 (bytes.length - w)).map
        (fun o => readBytes little ((bytes.drop o).take w))) := by
  unfold findCodePointers
  rw [findCodePointersAux_eq,
    candListAux_eq w little bytes (bytes.length + 1) 0 (by omega)]
  rfl

/-- C2 (amended): `harvestGlobalData` reads a pointer-sized word at every
byte offset `o` with `o + wordsize` strictly below the segment's byte
count — so the offset whose word ends exactly at the segment's final byte
is excluded — and passes each word value, read in the source byte order,
to `getBlockAt(value, reliable := false)`, in offset order, segment by
segment. -/
theorem harvestGlobalData_scans (s : JTMState)
    (h : s.arch.pointerSizeBits = 64 ∨ s.arch.pointerSizeBits = 32) :
    harvestGlobalData s =
      s.segments.foldl
        (fun acc seg => applyCandidates acc
          ((List.range' 0 (seg.bytes.length - s.arch.pointerSizeBits / 8)).map
            (fun o => readBytes s.arch.littleEndian
              ((seg.bytes.drop o).take (s.arch.pointerSizeBits / 8))))) s := by
  unfold harvestGlobalData
  have main : ∀ (segl : List SegmentInfo) (acc : JTMState), acc.arch = s.arch →
      segl.foldl harvestSegment acc =
        segl.foldl
          (fun acc seg => applyCandidates acc
            ((List.range' 0 (seg.bytes.length - s.arch.pointerSizeBits / 8)).map
              (fun o => readBytes s.arch.littleEndian
                ((seg.bytes.drop o).take (s.arch.pointerSizeBits / 8))))) acc := by
    intro segl
    induction segl with
    | nil => intro acc _; rfl
    | cons seg rest ih =>
      intro acc hacc
      rw [List.foldl_cons, List.foldl_cons]
      have hseg : harvestSegment acc seg =
          applyCandidates acc
            ((List.range' 0 (seg.bytes.length - s.arch.pointerSizeBits / 8)).map
              (fun o => readBytes s.arch.littleEndian
                ((seg.bytes.drop o).take (s.arch.pointerSizeBits / 8)))) := by
        unfold harvestSegment
        rw [hacc]
        rcases h with h1 | h1
        · rw [h1, if_pos rfl, findCodePointers_eq]
        · rw [h1]
          rw [if_neg (by omega), if_pos rfl, findCodePointers_eq]
      rw [hseg]
      exact ih (applyCandidates acc
        ((List.range' 0 (seg.bytes.length - s.arch.pointerSizeBits / 8)).map
          (fun o => readBytes s.arch.littleEndian
            ((seg.bytes.drop o).take (s.arch.pointerSizeBits / 8)))))
        (by rw [(applyCandidates_core _ acc).1, hacc])
  exact main s.segments s rfl

/-- C2 witness: the amended scan description applied at the concrete
32-bit state. -/
theorem harvestGlobalData_scans_witness :
    harvestGlobalData csHarvest =
      csHarvest.segments.foldl
        (fun acc seg => applyCandidates acc
          ((List.range' 0 (seg.bytes.length - csHarvest.arch.pointerSizeBits / 8)).map
            (fun o => readBytes csHarvest.arch.littleEndian
              ((seg.bytes.drop o).take (csHarvest.arch.pointerSizeBits / 8))))) csHarvest :=
  harvestGlobalData_scans csHarvest (Or.inr rfl)

/-!  Dispatcher completeness (C9). -/

theorem cases_filter_nil (w a : Nat) :
    ∀ jt : List (Nat × Nat), (∀ k ∈ jt.map Prod.fst, k < 2 ^ w) →
      a ∉ jt.map Prod.fst →
      (jt.map (fun p => (p.1 % 2 ^ w, p.2))).filter (fun c => c.1 == a) = [] := by
  intro jt
  induction jt with
  | nil => intro _ _; rfl
  | cons p rest ih =>
    intro hb hm
    have hk : p.1 < 2 ^ w := hb p.1 (by simp)
    have hne : ¬a = p.1 := fun hc => hm (by simp [hc])
    have hbeq : (((p.1 % 2 ^ w, p.2) : Nat × Nat).1 == a) = false := by
      simp only [beq_eq_false_iff_ne, ne_eq, Nat.mod_eq_of_lt hk]
      exact fun hc => hne hc.symm
    rw [List.map_cons, List.filter_cons, hbeq]
    simp only [Bool.false_eq_true, if_false]
    exact ih (fun k hkm => hb k (by simp [hkm]))
      (fun hc => hm (by simp; right; simpa using hc))

theorem cases_filter (w a b : Nat) :
    ∀ jt : List (Nat × Nat), (jt.map Prod.fst).Nodup →
      (∀ k ∈ jt.map Prod.fst, k < 2 ^ w) →
      alookup jt a = some b →
      (jt.map (fun p => (p.1 % 2 ^ w, p.2))).filter (fun c => c.1 == a) =
        [(a, b)] := by
  intro jt
  induction jt with
  | nil => intro _ _ hl; cases hl
  | cons p rest ih =>
    intro hnd hb hl
    have hk : p.1 < 2 ^ w := hb p.1 (by simp)
    by_cases hp : p.1 = a
    · have hbv : p.2 = b := by
        rw [alookup, if_pos hp] at hl
        exact Option.some.inj hl
      have hnotm : a ∉ rest.map Prod.fst := by
        subst hp
        simp only [List.map_cons, List.nodup_cons] at hnd
        exact hnd.1
      have hbeq : (((p.1 % 2 ^ w, p.2) : Nat × Nat).1 == a) = true := by
        simp only [beq_iff_eq, Nat.mod_eq_of_lt hk]
        exact hp
      rw [List.map_cons, List.filter_cons, hbeq, if_pos rfl]
      rw [cases_filter_nil w a rest (fun k hkm => hb k (by simp [hkm])) hnotm]
      have hka : a < 2 ^ w := hp ▸ hk
      simp [hp, hbv, Nat.mod_eq_of_lt hka]
    · have hl2 : alookup rest a = some b := by
        rw [alookup, if_neg hp] at hl
        exact hl
      have hbeq : (((p.1 % 2 ^ w, p.2) : Nat × Nat).1 == a) = false := by
        simp only [beq_eq_false_iff_ne, ne_eq, Nat.mod_eq_of_lt hk]
        exact hp
      rw [List.map_cons, List.filter_cons, hbeq]
      simp only [Bool.false_eq_true, if_false]
      refine ih ?_ (fun k hkm => hb k (by simp [hkm])) hl2
      simp only [List.map_cons, List.nodup_cons] at hnd
      exact hnd.2

theorem runCalls_inv (calls : List (Nat × Bool)) :
    ∀ s : JTMState,
      s.dispatcherCases = s.jumpTargets.map (fun p => (p.1 % 2 ^ s.pcWidth, p.2)) →
      (s.jumpTargets.map Prod.fst).Nodup →
      (∀ k ∈ s.jumpTargets.map Prod.fst, k < 2 ^ s.pcWidth) →
      (∀ c ∈ calls, validAddress s c.1 = true ∧ c.1 < 2 ^ s.pcWidth) →
      (runCalls s calls).pcWidth = s.pcWidth ∧
      (runCalls s calls).dispatcherCases =
        (runCalls s calls).jumpTargets.map (fun p => (p.1 % 2 ^ s.pcWidth, p.2)) ∧
      ((runCalls s calls).jumpTargets.map Prod.fst).Nodup ∧
      (∀ k ∈ (runCalls s calls).jumpTargets.map Prod.fst, k < 2 ^ s.pcWidth) ∧
      ((runCalls s calls).jumpTargets.map Prod.fst).toFinset =
        (s.jumpTargets.map Prod.fst).toFinset ∪ (calls.map Prod.fst).toFinset := by
  induction calls with
  | nil =>
    intro s h1 h2 h3 _
    exact ⟨rfl, h1, h2, h3, by simp [runCalls]⟩
  | cons c rest ih =>
    intro s h1 h2 h3 h4
    obtain ⟨hvc, hwc⟩ := h4 c (List.mem_cons_self _ _)
    have hrun : runCalls s (c :: rest) = runCalls (getBlockAt s c.1 c.2).2 rest := rfl
    cases hjt : alookup s.jumpTargets c.1 with
    | some b0 =>
      obtain ⟨_, hJ, hD, hR, hA, hW⟩ := getBlockAt_found s c.1 c.2 b0 hvc hjt
      have t1 : (getBlockAt s c.1 c.2).2.dispatcherCases =
          (getBlockAt s c.1 c.2).2.jumpTargets.map
            (fun p => (p.1 % 2 ^ (getBlockAt s c.1 c.2).2.pcWidth, p.2)) := by
        rw [hD, hJ, hW, h1]
      have t2 : ((getBlockAt s c.1 c.2).2.jumpTargets.map Prod.fst).Nodup := by
        rw [hJ]; exact h2
      have t3 : ∀ k ∈ (getBlockAt s c.1 c.2).2.jumpTargets.map Prod.fst,
          k < 2 ^ (getBlockAt s c.1 c.2).2.pcWidth := by
        rw [hJ, hW]; exact h3
      have t4 : ∀ d ∈ rest, validAddress (getBlockAt s c.1 c.2).2 d.1 = true ∧
          d.1 < 2 ^ (getBlockAt s c.1 c.2).2.pcWidth := by
        intro d hd
        obtain ⟨hv1, hw1⟩ := h4 d (List.mem_cons_of_mem _ hd)
        exact ⟨by rw [validAddress_congr d.1 hR hA]; exact hv1,
               by rw [hW]; exact hw1⟩
      obtain ⟨g1, g2, g3, g4, g5⟩ := ih (getBlockAt s c.1 c.2).2 t1 t2 t3 t4
      rw [hrun]
      refine ⟨by rw [g1, hW], by rw [g2, hW], g3, ?_, ?_⟩
      · intro k hk
        have := g4 k hk
        rw [hW] at this
        exact this
      · rw [g5, hJ]
        have hmem : c.1 ∈ s.jumpTargets.map Prod.fst := alookup_some_mem hjt
        ext y
        simp only [Finset.mem_union, List.mem_toFinset, List.map_cons,
          List.mem_cons]
        constructor
        · rintro (hy | hy)
          · exact Or.inl hy
          · exact Or.inr (by simpa using Or.inr hy)
        · rintro (hy | hy)
          · exact Or.inl hy
          · rcases (by simpa using hy : y = c.1 ∨ y ∈ rest.map Prod.fst) with
              hy1 | hy1
            · exact Or.inl (hy1 ▸ hmem)
            · exact Or.inr hy1
    | none =>
      obtain ⟨nb, _, hJ, hD, hR, hA, hW⟩ := getBlockAt_new s c.1 c.2 hvc hjt
      have hnotm : c.1 ∉ s.jumpTargets.map Prod.fst := (alookup_none_iff _ _).mp hjt
      have t1 : (getBlockAt s c.1 c.2).2.dispatcherCases =
          (getBlockAt s c.1 c.2).2.jumpTargets.map
            (fun p => (p.1 % 2 ^ (getBlockAt s c.1 c.2).2.pcWidth, p.2)) := by
        rw [hD, hJ, hW, h1, List.map_append]
        rfl
      have t2 : ((getBlockAt s c.1 c.2).2.jumpTargets.map Prod.fst).Nodup := by
        rw [hJ, List.map_append, List.nodup_append]
        refine ⟨h2, by simp, ?_⟩
        intro y hy
        simp only [List.map_cons, List.map_nil, List.mem_singleton]
        intro hc
        exact hnotm (hc ▸ hy)
      have t3 : ∀ k ∈ (getBlockAt s c.1 c.2).2.jumpTargets.map Prod.fst,
          k < 2 ^ (getBlockAt s c.1 c.2).2.pcWidth := by
        rw [hJ, hW, List.map_append]
        intro k hk
        rcases List.mem_append.mp hk with hk1 | hk1
        · exact h3 k hk1
        · have : k = c.1 := by simpa using hk1
          exact this ▸ hwc
      have t4 : ∀ d ∈ rest, validAddress (getBlockAt s c.1 c.2).2 d.1 = true ∧
          d.1 < 2 ^ (getBlockAt s c.1 c.2).2.pcWidth := by
        intro d hd
        obtain ⟨hv1, hw1⟩ := h4 d (List.mem_cons_of_mem _ hd)
        exact ⟨by rw [validAddress_congr d.1 hR hA]; exact hv1,
               by rw [hW]; exact hw1⟩
      obtain ⟨g1, g2, g3, g4, g5⟩ := ih (getBlockAt s c.1 c.2).2 t1 t2 t3 t4
      rw [hrun]
      refine ⟨by rw [g1, hW], by rw [g2, hW], g3, ?_, ?_⟩
      · intro k hk
        have := g4 k hk
        rw [hW] at this
        exact this
      · rw [g5, hJ, List.map_append, List.toFinset_append]
        ext y
        simp only [Finset.mem_union, List.mem_toFinset, List.map_cons,
          List.mem_cons, List.map_nil, List.toFinset_cons, List.toFinset_nil,
          Finset.mem_insert, Finset.not_mem_empty, or_false]
        constructor
        · rintro ((hy | hy) | hy)
          · exact Or.inl hy
          · exact Or.inr (Or.inl hy)
          · exact Or.inr (Or.inr hy)
        · rintro (hy | hy | hy)
          · exact Or.inl (Or.inl hy)
          · exact Or.inl (Or.inr hy)
          · exact Or.inr hy

/-- C9: starting from a fresh manager (empty JumpTargets, empty dispatcher
case table), after any sequence of `getBlockAt` calls with valid addresses
that fit the PC register's width, every address present in JumpTargets has
exactly one dispatcher case — whose literal equals the address and whose
destination is the address's block — and the number of cases equals the
number of distinct addresses requested. -/
theorem dispatcher_completeness (s0 : JTMState) (calls : List (Nat × Bool))
    (hjt0 : s0.jumpTargets = []) (hdc0 : s0.dispatcherCases = [])
    (hvalid : ∀ c ∈ calls, validAddress s0 c.1 = true ∧ c.1 < 2 ^ s0.pcWidth) :
    (∀ a b, alookup (runCalls s0 calls).jumpTargets a = some b →
      (runCalls s0 calls).dispatcherCases.filter (fun c => c.1 == a) = [(a, b)]) ∧
    (runCalls s0 calls).dispatcherCases.length =
      (calls.map Prod.fst).toFinset.card := by
  obtain ⟨g1, g2, g3, g4, g5⟩ := runCalls_inv calls s0
    (by rw [hjt0, hdc0]; rfl)
    (by rw [hjt0]; exact List.nodup_nil)
    (by rw [hjt0]; intro k hk; cases hk)
    hvalid
  constructor
  · intro a b hab
    rw [g2]
    exact cases_filter s0.pcWidth a b _ g3 g4 hab
  · rw [g2, List.length_map, ← List.length_map _ Prod.fst,
      ← List.toFinset_card_of_nodup g3, g5, hjt0]
    simp

/-- C9 witness: three calls over two distinct valid addresses produce
exactly two cases, each matching its address and block. -/
theorem dispatcher_completeness_witness :
    (∀ a b, alookup (runCalls csW callsW).jumpTargets a = some b →
      (runCalls csW callsW).dispatcherCases.filter (fun c => c.1 == a) = [(a, b)]) ∧
    (runCalls csW callsW).dispatcherCases.length =
      (callsW.map Prod.fst).toFinset.card :=
  dispatcher_completeness csW callsW rfl rfl (by decide)

/-!  `getPC` (C7). -/

theorem firstNewpcArgs_some (kinds : List (Nat × InstrKind)) :
    ∀ scan pc sz, firstNewpcArgs kinds scan = some (pc, sz) →
      ∃ i, alookup kinds i = some (InstrKind.newpc pc sz) := by
  intro scan
  induction scan with
  | nil => intro pc sz h; cases h
  | cons i rest ih =>
    intro pc sz h
    unfold firstNewpcArgs at h
    cases hk : alookup kinds i with
    | none =>
      rw [hk] at h
      exact ih pc sz h
    | some k =>
      cases k with
      | newpc p q =>
        rw [hk] at h
        simp only [Option.some.injEq, Prod.mk.injEq] at h
        exact ⟨i, by rw [hk, h.1, h.2]⟩
      | exitTBCall => rw [hk] at h; exact ih pc sz h
      | helperCall => rw [hk] at h; exact ih pc sz h
      | otherInstr => rw [hk] at h; exact ih pc sz h

theorem getPCLoop_sound (ir : IR) (kinds : List (Nat × InstrKind)) (disp : Nat) :
    ∀ (fuel : Nat) (wl : List (Nat × List Nat)) (vis : List Nat)
      (found : Option (Nat × Nat)) (pc sz : Nat),
      (∀ p q, found = some (p, q) →
        ∃ i, alookup kinds i = some (InstrKind.newpc p q)) →
      getPCLoop ir kinds disp fuel wl vis found = Except.ok (pc, sz) →
      (pc = 0 ∧ sz = 0) ∨
        ∃ i, alookup kinds i = some (InstrKind.newpc pc sz) := by
  intro fuel
  induction fuel with
  | zero =>
    intro wl vis found pc sz hf h
    cases wl with
    | nil =>
      cases found with
      | none =>
        unfold getPCLoop at h
        simp only [Except.ok.injEq, Prod.mk.injEq] at h
        exact Or.inl ⟨h.1.symm, h.2.symm⟩
      | some pr =>
        obtain ⟨p, q⟩ := pr
        unfold getPCLoop at h
        have h2 : (if q = 0 then Except.error () else Except.ok (p, q)) =
            Except.ok (pc, sz) := h
        by_cases hq : q = 0
        · rw [if_pos hq] at h2; cases h2
        · rw [if_neg hq] at h2
          simp only [Except.ok.injEq, Prod.mk.injEq] at h2
          exact Or.inr (h2.1 ▸ h2.2 ▸ hf p q rfl)
    | cons e rest =>
      unfold getPCLoop at h
      cases h
  | succ n ih =>
    intro wl vis found pc sz hf h
    cases wl with
    | nil =>
      cases found with
      | none =>
        unfold getPCLoop at h
        simp only [Except.ok.injEq, Prod.mk.injEq] at h
        exact Or.inl ⟨h.1.symm, h.2.symm⟩
      | some pr =>
        obtain ⟨p, q⟩ := pr
        unfold getPCLoop at h
        have h2 : (if q = 0 then Except.error () else Except.ok (p, q)) =
            Except.ok (pc, sz) := h
        by_cases hq : q = 0
        · rw [if_pos hq] at h2; cases h2
        · rw [if_neg hq] at h2
          simp only [Except.ok.injEq, Prod.mk.injEq] at h2
          exact Or.inr (h2.1 ▸ h2.2 ▸ hf p q rfl)
    | cons e rest =>
      obtain ⟨bb, scan⟩ := e
      unfold getPCLoop at h
      cases found with
      | some pr2 =>
        cases hfn : firstNewpcArgs kinds scan with
        | some pr =>
          rw [hfn] at h
          simp only [Except.ok.injEq, Prod.mk.injEq] at h
          exact Or.inl ⟨h.1.symm, h.2.symm⟩
        | none =>
          rw [hfn] at h
          exact ih rest (insertNat vis bb) (some pr2) pc sz hf h
      | none =>
        cases hfn : firstNewpcArgs kinds scan with
        | some pr =>
          obtain ⟨p, q⟩ := pr
          rw [hfn] at h
          refine ih rest (insertNat vis bb) (some (p, q)) pc sz ?_ h
          intro p2 q2 hpq
          simp only [Option.some.injEq, Prod.mk.injEq] at hpq
          exact hpq.1 ▸ hpq.2 ▸ firstNewpcArgs_some kinds scan p q hfn
        | none =>
          rw [hfn] at h
          by_cases hd : (predsOf ir bb).contains disp = true
          · rw [if_pos hd] at h; cases h
          · rw [if_neg hd] at h
            refine ih _ (insertNat vis bb) none pc sz ?_ h
            intro p q hpq
            cases hpq

/-- C7 (amended, soundness direction): whenever `getPC` returns a
non-sentinel pair, that pair is the `(address, size)` of an actual `newpc`
marker of the function, with non-zero size. -/
theorem getPC_sound (s : JTMState) (b idx pc sz : Nat)
    (h : getPC s b idx = Except.ok (pc, sz)) (hns : ¬(pc = 0 ∧ sz = 0)) :
    ∃ i, alookup s.instrKinds i = some (InstrKind.newpc pc sz) := by
  unfold getPC at h
  rcases getPCLoop_sound s.ir s.instrKinds s.dispatcher (getPCFuel s.ir) _ [] none
    pc sz (fun p q hpq => by cases hpq) h with h0 | hi
  · exact absurd h0 hns
  · exact hi

/-- C7 witness: on the straight-line block whose `newpc 100 4` directly
precedes the queried instruction, `getPC` returns `(100, 4)` and soundness
exhibits the marker. -/
theorem getPC_sound_witness :
    ∃ i, alookup stEx2.instrKinds i = some (InstrKind.newpc 100 4) :=
  getPC_sound stEx2 1 1 100 4 rfl (by decide)

/-- C7 (counterexample): in the diamond CFG `irEx` with exactly one
`newpc` marker, the marker's block is enqueued once per predecessor path
before being visited; the second scan finds the same marker again and
`getPC` answers the sentinel `(0, 0)`, although only one distinct marker
is reachable and the predecessors were not exhausted without a marker.
Moreover, a dispatcher predecessor reached before any marker is a fatal
assertion (`Except.error`), not a silently skipped edge. -/
theorem getPC_single_marker_cex :
    getPC stEx 4 1 = Except.ok (0, 0) ∧
    stEx.instrKinds.countP (fun p =>
      match p.2 with
      | InstrKind.newpc _ _ => true
      | _ => false) = 1 ∧
    getPC stEx3 5 1 = Except.error () :=
  ⟨rfl, rfl, rfl⟩

/-- C2 (counterexample): with a four-byte segment on a 32-bit
architecture, the only offset at which a full word fits is 0, where the
word ends exactly at the segment's final byte; the source scan reads
nothing (`Start < End - sizeof(value_type)` is strict), while the claimed
scan would read the word value 1 and register a dispatcher case for it. -/
theorem harvestGlobalData_last_word_cex :
    (harvestGlobalData csHarvest).dispatcherCases = [] ∧
    (harvestGlobalDataClaimed csHarvest).dispatcherCases = [(1, 7)] :=
  ⟨rfl, rfl⟩

end Revng
